import Mathlib

/-!
Shallow embedding of the clustering subsystem of the repository
(`src/tbpore/clustering.py`) and proofs about it.

The input file is modelled after it has been split on the delimiter: a header
list of sample names (the fields after the leading placeholder) and, for each
data line, the list of integer distance values (the fields after the leading
sample-name field).  `load_matrix` then mirrors the Python function line by
line: `np.argsort` over the header names, numpy fancy-indexing of each row by
the resulting index list (which raises `IndexError` when an index is out of
range and silently ignores positions that are never selected), row reordering
by the same index list, the diagonal check, the `np.allclose` symmetry check,
and the upper-triangle `stack()` producing the pair-indexed series in
row-major order.

`np.argsort` is modelled with a sorting permutation of `List.range n`
(numpy's quicksort agrees with any sorting permutation when the names are
distinct).  `np.allclose(a, b)` is `|a-b| <= atol + rtol*|b|` elementwise with
`atol = 1e-8`, `rtol = 1e-5`; over integer matrices this is the exact rational
inequality `10^8 * |a-b| <= 1 + 10^3 * |b|`, which is what we use.

`networkx` graphs are modelled by an explicit node list (insertion order,
duplicates skipped exactly as `nx.Graph` does) and the list of weighted edges
added by `add_weighted_edges_from`; `nx.connected_components` is modelled by a
breadth-first saturation from each not-yet-seen node in node order.
-/

namespace Tbpore

/-- The error outcomes of `load_matrix`: numpy `IndexError` while fancy-indexing
a row (or the row list) with the argsort index, and the two
`AsymmetrixMatrixError` raises for a non-zero diagonal and a failed
`np.allclose` symmetry check. -/
inductive LoadError where
  | indexError
  | diagonalNotZero
  | notSymmetric
deriving DecidableEq, Repr

/-- `m[i][j]` of a matrix given as a list of rows (0 outside bounds; only used
where bounds hold). -/
def getEntry (m : List (List Int)) (i j : Nat) : Int :=
  (m.getD i []).getD j 0

/-- Lexicographic `a <= b` on character lists. -/
def lexLe : List Char → List Char → Bool
  | [], _ => true
  | _ :: _, [] => false
  | a :: as, b :: bs => if a < b then true else if b < a then false else lexLe as bs

/-- `a <= b` on sample names: lexicographic code-point comparison, as Python
and numpy compare strings. -/
def strLe (a b : String) : Bool := lexLe a.data b.data

/-- Strict `a < b` on sample names. -/
def strLt (a b : String) : Bool := !strLe b a

/-- `np.argsort(names)`: a permutation of `0..n-1` listing positions in
ascending order of the corresponding name (numpy's comparison sort, modelled
by insertion sort; the two agree whenever the names are distinct). -/
def argsort (names : List String) : List Nat :=
  List.insertionSort (fun i j => strLe (names.getD i "") (names.getD j "") = true)
    (List.range names.length)

/-- numpy fancy-indexing `row[idx]`: selects `row[i]` for each `i` in `idx`,
raising (`none`) when some selected index is out of range; positions of `row`
not selected by `idx` are ignored. -/
def fancyIndex {α : Type} (idx : List Nat) (row : List α) : Option (List α) :=
  idx.mapM (fun i => row[i]?)

/-- The canonically sorted square matrix built by `load_matrix`: every data row
is fancy-indexed by `argsort names` (column reordering), then the row list
itself is fancy-indexed by the same permutation (row reordering),
`np.array(matrix)[idx]`. -/
def sortedMatrixOf (names : List String) (rows : List (List Int)) :
    Option (List (List Int)) :=
  (rows.mapM (fancyIndex (argsort names))).bind
    (fun matrix => fancyIndex (argsort names) matrix)

/-- `sorted_names = names[idx]`. -/
def sorted_names (names : List String) : List String :=
  (argsort names).map (fun i => names.getD i "")

/-- `all(sorted_matrix[i, i] == 0 for i in range(n_samples))`. -/
def diagonal_is_zero (sm : List (List Int)) (n : Nat) : Bool :=
  (List.range n).all (fun i => getEntry sm i i == 0)

/-- One element of `np.allclose(a, b)` over integer entries:
`|x - y| <= 1e-8 + 1e-5 * |y|`, exactly `10^8 * |x-y| <= 1 + 10^3 * |y|`. -/
def np_allclose_entry (x y : Int) : Bool :=
  decide (100000000 * (x - y).natAbs ≤ 1 + 1000 * y.natAbs)

/-- `np.allclose(sorted_matrix, sorted_matrix.T)` over an `n x n` matrix. -/
def matrix_is_symmetric (sm : List (List Int)) (n : Nat) : Bool :=
  (List.range n).all (fun i =>
    (List.range n).all (fun j =>
      np_allclose_entry (getEntry sm i j) (getEntry sm j i)))

/-- The strict-upper-triangle series produced by
`mx.where(np.triu(..., k=1)).stack()`: pairs `(ns[i], ns[j])` with `i < j` in
row-major order, each mapped to the entry `sm[i][j]`. -/
def triangle (ns : List String) (sm : List (List Int)) :
    List ((String × String) × Int) :=
  (List.range ns.length).flatMap (fun i =>
    ((List.range ns.length).filter (fun j => decide (i < j))).map (fun j =>
      ((ns.getD i "", ns.getD j ""), getEntry sm i j)))

/-- `load_matrix` of `clustering.py` over the already-split file contents. -/
def load_matrix (names : List String) (rows : List (List Int)) :
    Except LoadError (List ((String × String) × Int)) :=
  match sortedMatrixOf names rows with
  | none => .error .indexError
  | some sm =>
    let ns := sorted_names names
    if !diagonal_is_zero sm ns.length then .error .diagonalNotZero
    else if !matrix_is_symmetric sm ns.length then .error .notSymmetric
    else .ok (triangle ns sm)

/-- An `nx.Graph`: node list in insertion order and the weighted edge list. -/
structure Graph where
  nodes : List String
  edges : List (String × String × Int)
deriving DecidableEq, Repr

/-- `graph.add_node(u)`: appended only when not yet present. -/
def addNode (ns : List String) (u : String) : List String :=
  if u ∈ ns then ns else ns ++ [u]

/-- `matrix_to_graph` of `clustering.py`: the qualifying edges
(`dist <= threshold`), their endpoints as nodes in insertion order, and, when
`include_singletons` holds, every sample of `chain.from_iterable(mx.index)`
added as a node. -/
def matrix_to_graph (mx : List ((String × String) × Int)) (threshold : Int)
    (include_singletons : Bool) : Graph :=
  let edges := (mx.filter (fun e => decide (e.2 ≤ threshold))).map
    (fun e => (e.1.1, e.1.2, e.2))
  let ns0 := edges.foldl (fun acc e => addNode (addNode acc e.1) e.2.1) []
  let ns := if include_singletons
    then (mx.flatMap (fun e => [e.1.1, e.1.2])).foldl addNode ns0
    else ns0
  ⟨ns, edges⟩

/-- Undirected adjacency of the graph: some stored edge joins `a` and `b`. -/
def adjB (G : Graph) (a b : String) : Bool :=
  G.edges.any (fun e => (e.1 == a && e.2.1 == b) || (e.1 == b && e.2.1 == a))

/-- `a` and `b` are joined by an edge of weight `w` (in either stored
orientation). -/
def hasEdgeW (G : Graph) (a b : String) (w : Int) : Prop :=
  (a, b, w) ∈ G.edges ∨ (b, a, w) ∈ G.edges

/-- One breadth-first saturation round: every node of the graph adjacent to
the current front and not yet collected is appended (in node order). -/
def stepR (G : Graph) (s : List String) : List String :=
  s ++ G.nodes.filter (fun b => decide (b ∉ s) && s.any (fun c => adjB G c b))

/-- Iterated saturation. -/
def reachList (G : Graph) : Nat → List String → List String
  | 0, s => s
  | n + 1, s => reachList G n (stepR G s)

/-- All nodes connected to `a`: saturation from `{a}` run to a guaranteed
fixpoint (`|nodes| + 1` rounds suffice). -/
def reachFrom (G : Graph) (a : String) : List String :=
  reachList G (G.nodes.length + 1) [a]

/-- Components in first-discovery order over the node list, each component
being the connected component of its seed. -/
def componentsAux (G : Graph) : List String → List String → List (List String)
  | [], _ => []
  | v :: vs, seen =>
    if v ∈ seen then componentsAux G vs seen
    else reachFrom G v :: componentsAux G vs (seen ++ reachFrom G v)

/-- `nx.connected_components(graph)` as consumed by `get_clusters`. -/
def connected_components (G : Graph) : List (List String) :=
  componentsAux G G.nodes []

/-- `get_clusters` of `clustering.py`: load, build the graph with singletons
included, list the connected components. -/
def get_clusters (names : List String) (rows : List (List Int))
    (clustering_threshold : Int) : Except LoadError (List (List String)) :=
  (load_matrix names rows).map (fun ont_mtx =>
    connected_components (matrix_to_graph ont_mtx clustering_threshold true))

/-- The loop body of `get_formatted_clusters`: one description string per
cluster, carrying the running `cluster_index`. -/
def clusters_as_strs : Nat → List (List String) → List String
  | _, [] => []
  | cluster_index, cluster :: rest =>
    ("Cluster #" ++ Nat.repr (cluster_index + 1) ++ ":\t"
        ++ String.intercalate "\t" cluster)
      :: clusters_as_strs (cluster_index + 1) rest

/-- `get_formatted_clusters` of `clustering.py`. -/
def get_formatted_clusters (clusters : List (List String)) : String :=
  String.intercalate "\n" (clusters_as_strs 0 clusters)

/-- Propositional connectivity in a graph: a chain of edges from `a` to `b`
all of whose targets are nodes of the graph. -/
abbrev ReachN (G : Graph) : String → String → Prop :=
  Relation.ReflTransGen (fun x y => adjB G x y = true ∧ y ∈ G.nodes)

section Lemmas

theorem argsort_perm (names : List String) :
    (argsort names).Perm (List.range names.length) :=
  List.perm_insertionSort _ _

theorem argsort_length (names : List String) :
    (argsort names).length = names.length := by
  simpa using (argsort_perm names).length_eq

theorem mem_argsort (names : List String) {i : Nat} :
    i ∈ argsort names ↔ i < names.length := by
  rw [(argsort_perm names).mem_iff, List.mem_range]

theorem sorted_names_length (names : List String) :
    (sorted_names names).length = names.length := by
  simp [sorted_names, argsort_length]

theorem diagonal_is_zero_iff {sm : List (List Int)} {n : Nat} :
    diagonal_is_zero sm n = true ↔ ∀ i < n, getEntry sm i i = 0 := by
  simp [diagonal_is_zero, List.all_eq_true, List.mem_range]

theorem matrix_is_symmetric_iff {sm : List (List Int)} {n : Nat} :
    matrix_is_symmetric sm n = true ↔
      ∀ i < n, ∀ j < n,
        100000000 * (getEntry sm i j - getEntry sm j i).natAbs ≤
          1 + 1000 * (getEntry sm j i).natAbs := by
  simp [matrix_is_symmetric, np_allclose_entry, List.all_eq_true, List.mem_range]

theorem load_matrix_of_some {names : List String} {rows sm : List (List Int)}
    (h : sortedMatrixOf names rows = some sm) :
    load_matrix names rows =
      (if !diagonal_is_zero sm (sorted_names names).length then
        Except.error LoadError.diagonalNotZero
      else if !matrix_is_symmetric sm (sorted_names names).length then
        Except.error LoadError.notSymmetric
      else Except.ok (triangle (sorted_names names) sm)) := by
  unfold load_matrix
  rw [h]

theorem load_matrix_of_none {names : List String} {rows : List (List Int)}
    (h : sortedMatrixOf names rows = none) :
    load_matrix names rows = Except.error LoadError.indexError := by
  unfold load_matrix
  rw [h]

theorem mapM_option_congr {α β : Type} {f g : α → Option β} :
    ∀ {l : List α}, (∀ a ∈ l, f a = g a) → l.mapM f = l.mapM g := by
  intro l
  induction l with
  | nil => intro _; rfl
  | cons a l ih =>
    intro h
    simp only [List.mapM_cons, h a (List.mem_cons_self a l),
      ih (fun b hb => h b (List.mem_cons_of_mem a hb))]

theorem mapM_option_eq_none {α β : Type} {f : α → Option β} {a : α} :
    ∀ {l : List α}, a ∈ l → f a = none → l.mapM f = none := by
  intro l
  induction l with
  | nil => intro h; exact absurd h (List.not_mem_nil a)
  | cons b l ih =>
    intro hmem hf
    rcases List.mem_cons.mp hmem with rfl | hmem'
    · rw [List.mapM_cons, hf]
      rfl
    · rcases hq : f b with _ | val
      · rw [List.mapM_cons, hq]
        rfl
      · rw [List.mapM_cons, hq, ih hmem' hf]
        rfl

theorem mapM_option_eq_some {α β : Type} {f : α → Option β} {g : α → β} :
    ∀ {l : List α}, (∀ a ∈ l, f a = some (g a)) → l.mapM f = some (l.map g) := by
  intro l
  induction l with
  | nil => intro _; rfl
  | cons a l ih =>
    intro h
    rw [List.mapM_cons, h a (List.mem_cons_self a l),
      ih (fun b hb => h b (List.mem_cons_of_mem a hb))]
    rfl

theorem mapM_option_of_map {α β γ : Type} (f : β → Option γ) (g : α → β) :
    ∀ (l : List α), (l.map g).mapM f = l.mapM (fun a => f (g a)) := by
  intro l
  induction l with
  | nil => rfl
  | cons a l ih => simp only [List.map_cons, List.mapM_cons, ih]

theorem fancyIndex_take {α : Type} {idx : List Nat} {n : Nat}
    (h : ∀ i ∈ idx, i < n) (r : List α) :
    fancyIndex idx (r.take n) = fancyIndex idx r := by
  unfold fancyIndex
  apply mapM_option_congr
  intro i hi
  rw [List.getElem?_take, if_pos (h i hi)]

theorem mem_addNode {ns : List String} {u x : String} :
    x ∈ addNode ns u ↔ x ∈ ns ∨ x = u := by
  unfold addNode
  by_cases h : u ∈ ns
  · rw [if_pos h]
    constructor
    · exact Or.inl
    · rintro (hx | rfl)
      · exact hx
      · exact h
  · rw [if_neg h]
    simp

theorem mem_foldl_addNode (l : List String) :
    ∀ (acc : List String) (x : String),
      x ∈ l.foldl addNode acc ↔ x ∈ acc ∨ x ∈ l := by
  induction l with
  | nil => simp
  | cons a l ih =>
    intro acc x
    rw [List.foldl_cons, ih, mem_addNode]
    simp [or_assoc]

theorem mem_foldl_addEdge (es : List (String × String × Int)) :
    ∀ (acc : List String) (x : String),
      x ∈ es.foldl (fun acc e => addNode (addNode acc e.1) e.2.1) acc ↔
        x ∈ acc ∨ ∃ e ∈ es, x = e.1 ∨ x = e.2.1 := by
  induction es with
  | nil => simp
  | cons e es ih =>
    intro acc x
    rw [List.foldl_cons, ih, mem_addNode, mem_addNode]
    constructor
    · rintro (((h | h) | h) | ⟨e', he', h⟩)
      · exact Or.inl h
      · exact Or.inr ⟨e, List.mem_cons_self e es, Or.inl h⟩
      · exact Or.inr ⟨e, List.mem_cons_self e es, Or.inr h⟩
      · exact Or.inr ⟨e', List.mem_cons_of_mem e he', h⟩
    · rintro (h | ⟨e', he', h⟩)
      · exact Or.inl (Or.inl (Or.inl h))
      · rcases List.mem_cons.mp he' with rfl | he''
        · rcases h with h | h
          · exact Or.inl (Or.inl (Or.inr h))
          · exact Or.inl (Or.inr h)
        · exact Or.inr ⟨e', he'', h⟩

theorem graph_edges_eq (mx : List ((String × String) × Int)) (t : Int) (s : Bool) :
    (matrix_to_graph mx t s).edges =
      (mx.filter (fun e => decide (e.2 ≤ t))).map (fun e => (e.1.1, e.1.2, e.2)) := rfl

theorem mem_nodes_of_graph_false {mx : List ((String × String) × Int)} {t : Int}
    {u : String} :
    u ∈ (matrix_to_graph mx t false).nodes ↔
      ∃ p ∈ mx, p.2 ≤ t ∧ (u = p.1.1 ∨ u = p.1.2) := by
  have hn : (matrix_to_graph mx t false).nodes =
      ((mx.filter (fun e => decide (e.2 ≤ t))).map
        (fun e => (e.1.1, e.1.2, e.2))).foldl
        (fun acc e => addNode (addNode acc e.1) e.2.1) [] := rfl
  rw [hn, mem_foldl_addEdge]
  constructor
  · rintro (h | ⟨e, he, hu⟩)
    · exact absurd h (List.not_mem_nil u)
    · obtain ⟨p, hp, rfl⟩ := List.mem_map.mp he
      obtain ⟨hpm, hpt⟩ := List.mem_filter.mp hp
      exact ⟨p, hpm, of_decide_eq_true hpt, hu⟩
  · rintro ⟨p, hp, hpt, hu⟩
    refine Or.inr ⟨(p.1.1, p.1.2, p.2), ?_, hu⟩
    exact List.mem_map.mpr ⟨p, List.mem_filter.mpr ⟨hp, decide_eq_true hpt⟩, rfl⟩

theorem mem_nodes_of_graph_true {mx : List ((String × String) × Int)} {t : Int}
    {u : String} :
    u ∈ (matrix_to_graph mx t true).nodes ↔ ∃ p ∈ mx, u = p.1.1 ∨ u = p.1.2 := by
  have hn : (matrix_to_graph mx t true).nodes =
      (mx.flatMap (fun e => [e.1.1, e.1.2])).foldl addNode
        (matrix_to_graph mx t false).nodes := rfl
  rw [hn, mem_foldl_addNode, mem_nodes_of_graph_false]
  constructor
  · rintro (⟨p, hp, _, hu⟩ | h)
    · exact ⟨p, hp, hu⟩
    · obtain ⟨p, hp, hu⟩ := List.mem_flatMap.mp h
      refine ⟨p, hp, ?_⟩
      simpa using hu
  · rintro ⟨p, hp, hu⟩
    refine Or.inr (List.mem_flatMap.mpr ⟨p, hp, ?_⟩)
    rcases hu with rfl | rfl <;> simp

end Lemmas

/-- C10: loading any valid 1x1 matrix (a single sample with any name, zero
diagonal) yields the empty pair series, and `get_clusters` on it returns the
empty cluster list for every threshold, the lone sample appearing in no
cluster even though singletons are requested. -/
theorem C10_single_sample :
    ∀ (s : String) (t : Int),
      load_matrix [s] [[0]] = Except.ok [] ∧
      get_clusters [s] [[0]] t = Except.ok [] :=
  fun _ _ => ⟨rfl, rfl⟩

/-- C9: `get_formatted_clusters` joins one description line per cluster with
newlines; the `k`-th line (0-based `k`) is the label `Cluster #(k+1)` followed
by `:` and the cluster's members joined by tabs, in input order. -/
theorem C9_formatting (clusters : List (List String)) :
    get_formatted_clusters clusters
        = String.intercalate "\n" (clusters_as_strs 0 clusters) ∧
    (clusters_as_strs 0 clusters).length = clusters.length ∧
    ∀ k, k < clusters.length →
      (clusters_as_strs 0 clusters).getD k ""
        = "Cluster #" ++ Nat.repr (k + 1) ++ ":\t"
            ++ String.intercalate "\t" (clusters.getD k []) := by
  refine ⟨rfl, ?_, ?_⟩
  · have h : ∀ (i : Nat) (cs : List (List String)),
        (clusters_as_strs i cs).length = cs.length := by
      intro i cs
      induction cs generalizing i with
      | nil => rfl
      | cons c cs ih => simp [clusters_as_strs, ih]
    exact h 0 clusters
  · have h : ∀ (cs : List (List String)) (i k : Nat), k < cs.length →
        (clusters_as_strs i cs).getD k ""
          = "Cluster #" ++ Nat.repr (i + k + 1) ++ ":\t"
              ++ String.intercalate "\t" (cs.getD k []) := by
      intro cs
      induction cs with
      | nil => intro i k hk; simp at hk
      | cons c cs ih =>
        intro i k hk
        cases k with
        | zero => simp [clusters_as_strs]
        | succ k =>
          have hk' : k < cs.length := by simpa using hk
          have := ih (i + 1) k hk'
          simp only [clusters_as_strs, List.getD_cons_succ, this]
          have harith : i + 1 + k + 1 = i + (k + 1) + 1 := by omega
          rw [harith]
    intro k hk
    simpa using h clusters 0 k hk

/-- Witness for C9 at the cluster list `[[A, B], [C]]`, line index 1. -/
theorem C9_formatting_witness :
    (clusters_as_strs 0 [["A", "B"], ["C"]]).getD 1 ""
      = "Cluster #" ++ Nat.repr (1 + 1) ++ ":\t"
          ++ String.intercalate "\t" ([["A", "B"], ["C"]].getD 1 []) :=
  (C9_formatting [["A", "B"], ["C"]]).2.2 1 (by decide)

/-- C4: whenever the canonically sorted matrix parses and has a non-zero
diagonal entry, `load_matrix` fails with the diagonal-violation error and
returns no matrix, regardless of anything checked later (the diagonal check
precedes the symmetry check and the triangle construction). -/
theorem C4_diagonal_error (names : List String) (rows sm : List (List Int))
    (hsm : sortedMatrixOf names rows = some sm)
    (i : Nat) (hi : i < names.length) (hne : getEntry sm i i ≠ 0) :
    load_matrix names rows = Except.error LoadError.diagonalNotZero := by
  rw [load_matrix_of_some hsm, sorted_names_length]
  have hd : diagonal_is_zero sm names.length = false := by
    rcases h : diagonal_is_zero sm names.length with _ | _
    · rfl
    · exact absurd (diagonal_is_zero_iff.mp h i hi) hne
  rw [hd]
  rfl

/-- Witness for C4: the matrix with `distance(A,A) = 1` is rejected with the
diagonal error. -/
theorem C4_diagonal_error_witness :
    load_matrix ["A", "B"] [[1, 5], [5, 0]] = Except.error LoadError.diagonalNotZero :=
  C4_diagonal_error ["A", "B"] [[1, 5], [5, 0]] [[1, 5], [5, 0]] rfl 0 (by decide)
    (by decide)

/-- C3 counterexample: the pair `(A,B)` stores 100000 one way and 100001 the
other — an exact-integer asymmetry — yet `load_matrix` accepts the matrix,
because `np.allclose` tolerates a difference of 1 at that magnitude
(`1 <= 1e-8 + 1e-5 * 100001`).  So the loader does not implement exact
integer symmetry. -/
theorem C3_allclose_counterexample :
    sortedMatrixOf ["A", "B"] [[0, 100000], [100001, 0]]
        = some [[0, 100000], [100001, 0]] ∧
    getEntry [[0, 100000], [100001, 0]] 0 1 ≠ getEntry [[0, 100000], [100001, 0]] 1 0 ∧
    load_matrix ["A", "B"] [[0, 100000], [100001, 0]]
        = Except.ok [(("A", "B"), 100000)] :=
  ⟨rfl, by decide, rfl⟩

/-- C3 amended: on a parseable matrix with a zero diagonal, `load_matrix`
fails with the asymmetry error iff some pair `(i,j)` of the sorted matrix
violates the `np.allclose` tolerance `|m[i][j] - m[j][i]| <= 1e-8 +
1e-5 * |m[j][i]|` (over integers: `10^8 * |m[i][j] - m[j][i]| <= 1 +
10^3 * |m[j][i]|`); small violations such as 5 versus 6 are rejected, but
near-equal pairs within the relative tolerance are accepted. -/
theorem C3_allclose_symmetry (names : List String) (rows sm : List (List Int))
    (hsm : sortedMatrixOf names rows = some sm)
    (hdiag : ∀ i < names.length, getEntry sm i i = 0) :
    load_matrix names rows = Except.error LoadError.notSymmetric ↔
      ∃ i, ∃ j, i < names.length ∧ j < names.length ∧
        1 + 1000 * (getEntry sm j i).natAbs <
          100000000 * (getEntry sm i j - getEntry sm j i).natAbs := by
  rw [load_matrix_of_some hsm, sorted_names_length,
    diagonal_is_zero_iff.mpr hdiag]
  rcases hs : matrix_is_symmetric sm names.length with _ | _
  · simp only [Bool.not_true, Bool.not_false, if_false, if_true]
    constructor
    · intro _
      have hns : ¬ ∀ i < names.length, ∀ j < names.length,
          100000000 * (getEntry sm i j - getEntry sm j i).natAbs ≤
            1 + 1000 * (getEntry sm j i).natAbs := by
        intro hall
        rw [matrix_is_symmetric_iff.mpr hall] at hs
        cases hs
      push_neg at hns
      obtain ⟨i, hi, j, hj, hij⟩ := hns
      exact ⟨i, j, hi, hj, hij⟩
    · intro _
      rfl
  · simp only [Bool.not_true, Bool.not_false, if_false, if_true]
    constructor
    · intro h
      cases h
    · rintro ⟨i, j, hi, hj, hij⟩
      exact absurd (matrix_is_symmetric_iff.mp hs i hi j hj) (by omega)

/-- Witness for the amended C3: `distance(A,B) = 5` against
`distance(B,A) = 6` is rejected with the asymmetry error. -/
theorem C3_allclose_symmetry_witness :
    load_matrix ["A", "B"] [[0, 5], [6, 0]] = Except.error LoadError.notSymmetric ↔
      ∃ i, ∃ j, i < (["A", "B"] : List String).length ∧
        j < (["A", "B"] : List String).length ∧
        1 + 1000 * (getEntry [[0, 5], [6, 0]] j i).natAbs <
          100000000 * (getEntry [[0, 5], [6, 0]] i j - getEntry [[0, 5], [6, 0]] j i).natAbs :=
  C3_allclose_symmetry ["A", "B"] [[0, 5], [6, 0]] [[0, 5], [6, 0]] rfl (by decide)

/-- C7 counterexample: with two header samples, a data row carrying a third
value is not rejected — `load_matrix` silently ignores the extra value and
returns a matrix, since fancy-indexing by the argsort permutation only reads
the first `n` positions. -/
theorem C7_rowshape_counterexample :
    load_matrix ["A", "B"] [[0, 5, 99], [5, 0, 7]] = Except.ok [(("A", "B"), 5)] ∧
    ¬ ∀ r ∈ [[0, 5, 99], [5, 0, 7]], r.length = (["A", "B"] : List String).length :=
  ⟨rfl, by decide⟩

/-- C7 amended: values beyond the header width are silently dropped —
loading is unchanged when every row is truncated to the first `n` values —
while a row with fewer than `n` values makes the whole load fail fast with
the index error and no partial matrix. -/
theorem C7_rowshape :
    (∀ (names : List String) (rows : List (List Int)),
      load_matrix names rows
        = load_matrix names (rows.map (fun r => r.take names.length))) ∧
    (∀ (names : List String) (rows : List (List Int)) (r : List Int),
      r ∈ rows → r.length < names.length →
      load_matrix names rows = Except.error LoadError.indexError) := by
  constructor
  · intro names rows
    have hidx : ∀ i ∈ argsort names, i < names.length :=
      fun i hi => (mem_argsort names).mp hi
    have h1 : (rows.map (fun r => r.take names.length)).mapM
        (fancyIndex (argsort names)) = rows.mapM (fancyIndex (argsort names)) := by
      rw [mapM_option_of_map]
      exact mapM_option_congr (fun r _ => fancyIndex_take hidx r)
    have key : sortedMatrixOf names (rows.map (fun r => r.take names.length))
        = sortedMatrixOf names rows := by
      unfold sortedMatrixOf
      rw [h1]
    unfold load_matrix
    rw [key]
  · intro names rows r hr hlen
    have hmem : names.length - 1 ∈ argsort names :=
      (mem_argsort names).mpr (by omega)
    have hfail : fancyIndex (argsort names) r = none :=
      mapM_option_eq_none hmem (List.getElem?_eq_none (by omega))
    have hrows : rows.mapM (fancyIndex (argsort names)) = none :=
      mapM_option_eq_none hr hfail
    have hsm : sortedMatrixOf names rows = none := by
      unfold sortedMatrixOf
      rw [hrows]
      rfl
    exact load_matrix_of_none hsm

/-- Witness for the amended C7: a row with a single value under a two-sample
header fails with the index error. -/
theorem C7_rowshape_witness :
    load_matrix ["A", "B"] [[0], [5, 0]] = Except.error LoadError.indexError :=
  C7_rowshape.2 ["A", "B"] [[0], [5, 0]] [0] (by decide) (by decide)

/-- C1: in the graph built from a loaded matrix, samples `a` and `b` are
joined by an edge of weight `w` exactly when the series stores the pair with
distance `w` and `w <= threshold` (inclusive boundary: a pair at exactly the
threshold is connected, a pair at `threshold + 1` is not); the weight is the
stored distance. -/
theorem C1_inclusive_threshold_edges (names : List String)
    (rows : List (List Int)) (mx : List ((String × String) × Int))
    (hload : load_matrix names rows = Except.ok mx)
    (threshold : Int) (include_singletons : Bool) (a b : String) (w : Int) :
    hasEdgeW (matrix_to_graph mx threshold include_singletons) a b w ↔
      ((((a, b), w) ∈ mx ∨ ((b, a), w) ∈ mx) ∧ w ≤ threshold) := by
  unfold hasEdgeW
  rw [graph_edges_eq]
  constructor
  · rintro (h | h) <;>
      obtain ⟨⟨⟨s1, s2⟩, d⟩, hm, he⟩ := List.mem_map.mp h <;>
      obtain ⟨hmx, hdt⟩ := List.mem_filter.mp hm <;>
      obtain ⟨rfl, rfl, rfl⟩ := Prod.mk.injEq .. ▸ he <;>
      refine ⟨?_, of_decide_eq_true hdt⟩
    · exact Or.inl hmx
    · exact Or.inr hmx
  · rintro ⟨h | h, hw⟩
    · exact Or.inl (List.mem_map.mpr
        ⟨((a, b), w), List.mem_filter.mpr ⟨h, decide_eq_true hw⟩, rfl⟩)
    · exact Or.inr (List.mem_map.mpr
        ⟨((b, a), w), List.mem_filter.mpr ⟨h, decide_eq_true hw⟩, rfl⟩)

/-- Witness for C1: in the loaded matrix `{A-B:2, A-C:10, B-C:9}` at
threshold 3, the edge `B - A` of weight 2 is present. -/
theorem C1_inclusive_threshold_edges_witness :
    hasEdgeW (matrix_to_graph [(("A", "B"), 2), (("A", "C"), 10), (("B", "C"), 9)] 3 true)
        "B" "A" 2 ↔
      (((("B", "A"), 2) ∈
          ([(("A", "B"), 2), (("A", "C"), 10), (("B", "C"), 9)] :
            List ((String × String) × Int)) ∨
        (("A", "B"), 2) ∈
          ([(("A", "B"), 2), (("A", "C"), 10), (("B", "C"), 9)] :
            List ((String × String) × Int))) ∧
        (2 : Int) ≤ 3) :=
  C1_inclusive_threshold_edges ["A", "B", "C"] [[0, 2, 10], [2, 0, 9], [10, 9, 0]]
    [(("A", "B"), 2), (("A", "C"), 10), (("B", "C"), 9)] rfl 3 true "B" "A" 2

/-- C6: for a loaded matrix, with `include_singletons` true the nodes of the
built graph are exactly the sample names occurring in the pair index (also
those with no qualifying edge); with it false they are exactly the endpoints
of qualifying edges, so edge-less samples are absent. -/
theorem C6_singleton_nodes (names : List String) (rows : List (List Int))
    (mx : List ((String × String) × Int))
    (hload : load_matrix names rows = Except.ok mx) (t : Int) (u : String) :
    (u ∈ (matrix_to_graph mx t true).nodes ↔
      ∃ p ∈ mx, u = p.1.1 ∨ u = p.1.2) ∧
    (u ∈ (matrix_to_graph mx t false).nodes ↔
      ∃ p ∈ mx, p.2 ≤ t ∧ (u = p.1.1 ∨ u = p.1.2)) :=
  ⟨mem_nodes_of_graph_true, mem_nodes_of_graph_false⟩

/-- Witness for C6: sample `C` of the loaded matrix `{A-B:2, A-C:10, B-C:9}`
at threshold 3. -/
theorem C6_singleton_nodes_witness :
    ("C" ∈ (matrix_to_graph [(("A", "B"), 2), (("A", "C"), 10), (("B", "C"), 9)] 3 true).nodes ↔
      ∃ p ∈ ([(("A", "B"), 2), (("A", "C"), 10), (("B", "C"), 9)] :
          List ((String × String) × Int)),
        "C" = p.1.1 ∨ "C" = p.1.2) ∧
    ("C" ∈ (matrix_to_graph [(("A", "B"), 2), (("A", "C"), 10), (("B", "C"), 9)] 3 false).nodes ↔
      ∃ p ∈ ([(("A", "B"), 2), (("A", "C"), 10), (("B", "C"), 9)] :
          List ((String × String) × Int)),
        p.2 ≤ 3 ∧ ("C" = p.1.1 ∨ "C" = p.1.2)) :=
  C6_singleton_nodes ["A", "B", "C"] [[0, 2, 10], [2, 0, 9], [10, 9, 0]]
    [(("A", "B"), 2), (("A", "C"), 10), (("B", "C"), 9)] rfl 3 "C"

section Connectivity

theorem adjB_comm {G : Graph} {a b : String} :
    adjB G a b = true ↔ adjB G b a = true := by
  simp only [adjB, List.any_eq_true, Bool.or_eq_true, Bool.and_eq_true, beq_iff_eq]
  constructor <;> rintro ⟨e, he, h⟩ <;> exact ⟨e, he, or_comm.mp h⟩

theorem subset_stepR {G : Graph} {s : List String} : s ⊆ stepR G s := by
  intro x hx
  exact List.mem_append_left _ hx

theorem mem_stepR {G : Graph} {s : List String} {x : String} :
    x ∈ stepR G s ↔
      x ∈ s ∨ (x ∈ G.nodes ∧ x ∉ s ∧ ∃ c ∈ s, adjB G c x = true) := by
  unfold stepR
  simp [List.mem_filter, List.any_eq_true, and_assoc]

theorem reachList_subset_of_subset {G : Graph} :
    ∀ (n : Nat) (s : List String), s ⊆ reachList G n s := by
  intro n
  induction n with
  | zero => intro s; exact fun x hx => hx
  | succ n ih =>
    intro s
    exact fun x hx => ih (stepR G s) (subset_stepR hx)

theorem mem_reachFrom_self (G : Graph) (a : String) : a ∈ reachFrom G a :=
  reachList_subset_of_subset _ [a] (List.mem_singleton_self a)

theorem reachList_sound {G : Graph} {a : String} :
    ∀ (n : Nat) (s : List String),
      (∀ y ∈ s, y = a ∨ (ReachN G a y ∧ y ∈ G.nodes)) →
      ∀ x ∈ reachList G n s, x = a ∨ (ReachN G a x ∧ x ∈ G.nodes) := by
  intro n
  induction n with
  | zero => intro s h x hx; exact h x hx
  | succ n ih =>
    intro s h x hx
    refine ih (stepR G s) ?_ x hx
    intro y hy
    rcases mem_stepR.mp hy with hy | ⟨hnode, _, c, hc, hadj⟩
    · exact h y hy
    · right
      refine ⟨?_, hnode⟩
      rcases h c hc with rfl | ⟨hr, _⟩
      · exact Relation.ReflTransGen.single ⟨hadj, hnode⟩
      · exact Relation.ReflTransGen.tail hr ⟨hadj, hnode⟩

theorem reachList_of_fix {G : Graph} {s : List String} (h : stepR G s = s) :
    ∀ n, reachList G n s = s := by
  intro n
  induction n with
  | zero => rfl
  | succ n ih =>
    show reachList G n (stepR G s) = s
    rw [h]
    exact ih

theorem stepR_nodup {G : Graph} {s : List String} (hG : G.nodes.Nodup)
    (hs : s.Nodup) : (stepR G s).Nodup := by
  unfold stepR
  refine List.Nodup.append hs (hG.filter _) ?_
  intro x hxs hxf
  have := List.mem_filter.mp hxf
  simp at this
  exact this.2.1 hxs

theorem stepR_subset_nodes {G : Graph} {s : List String} {a : String}
    (hs : s ⊆ a :: G.nodes) : stepR G s ⊆ a :: G.nodes := by
  intro x hx
  rcases List.mem_append.mp hx with hx | hx
  · exact hs hx
  · exact List.mem_cons_of_mem a (List.mem_of_mem_filter hx)

theorem reachList_nodup {G : Graph} (hG : G.nodes.Nodup) :
    ∀ (n : Nat) (s : List String), s.Nodup → (reachList G n s).Nodup := by
  intro n
  induction n with
  | zero => intro s hs; exact hs
  | succ n ih => intro s hs; exact ih (stepR G s) (stepR_nodup hG hs)

theorem reachList_subset_cons {G : Graph} {a : String} :
    ∀ (n : Nat) (s : List String), s ⊆ a :: G.nodes →
      reachList G n s ⊆ a :: G.nodes := by
  intro n
  induction n with
  | zero => intro s hs; exact hs
  | succ n ih => intro s hs; exact ih (stepR G s) (stepR_subset_nodes hs)

theorem length_lt_stepR {G : Graph} {s : List String} (h : stepR G s ≠ s) :
    s.length + 1 ≤ (stepR G s).length := by
  rcases hf : G.nodes.filter (fun b => decide (b ∉ s) && s.any (fun c => adjB G c b))
      with _ | ⟨y, ys⟩
  · exact absurd (by unfold stepR; rw [hf]; exact List.append_nil s) h
  · unfold stepR
    rw [hf]
    simp [List.length_append]

theorem reachList_fix_or_grow {G : Graph} (hG : G.nodes.Nodup) :
    ∀ (n : Nat) (s : List String), s.Nodup →
      stepR G (reachList G n s) = reachList G n s ∨
        s.length + n ≤ (reachList G n s).length := by
  intro n
  induction n with
  | zero => intro s _; right; exact Nat.le_refl _
  | succ n ih =>
    intro s hs
    by_cases h : stepR G s = s
    · left
      have hfix : reachList G (n + 1) s = s := by
        show reachList G n (stepR G s) = s
        rw [h]
        exact reachList_of_fix h n
      rw [hfix]
      exact h
    · rcases ih (stepR G s) (stepR_nodup hG hs) with hfix | hlen
      · exact Or.inl hfix
      · right
        have := length_lt_stepR h
        show s.length + (n + 1) ≤ (reachList G n (stepR G s)).length
        omega

theorem stepR_reachFrom_fix {G : Graph} {a : String} (hG : G.nodes.Nodup) :
    stepR G (reachFrom G a) = reachFrom G a := by
  unfold reachFrom
  rcases reachList_fix_or_grow hG (G.nodes.length + 1) [a] (List.nodup_singleton a)
      with h | h
  · exact h
  · exfalso
    have h1 : (reachList G (G.nodes.length + 1) [a]).Nodup :=
      reachList_nodup hG _ [a] (List.nodup_singleton a)
    have h2 : reachList G (G.nodes.length + 1) [a] ⊆ a :: G.nodes :=
      reachList_subset_cons _ [a] (by intro x hx; simp at hx; simp [hx])
    have h3 : (reachList G (G.nodes.length + 1) [a]).length ≤ G.nodes.length + 1 := by
      have := (h1.subperm h2).length_le
      simpa using this
    simp at h
    omega

theorem reachN_mem_reachFrom {G : Graph} {a : String} (hG : G.nodes.Nodup) :
    ∀ {x : String}, ReachN G a x → x ∈ reachFrom G a := by
  intro x hr
  induction hr with
  | refl => exact mem_reachFrom_self G a
  | @tail b c hab hbc ih =>
    rw [← stepR_reachFrom_fix hG]
    apply mem_stepR.mpr
    by_cases hc : c ∈ reachFrom G a
    · exact Or.inl hc
    · exact Or.inr ⟨hbc.2, hc, b, ih, hbc.1⟩

theorem mem_reachFrom {G : Graph} {a x : String} (hG : G.nodes.Nodup) :
    x ∈ reachFrom G a ↔ x = a ∨ (ReachN G a x ∧ x ∈ G.nodes) := by
  constructor
  · intro hx
    refine reachList_sound _ [a] ?_ x hx
    intro y hy
    rw [List.mem_singleton] at hy
    exact Or.inl hy
  · rintro (rfl | ⟨hr, _⟩)
    · exact mem_reachFrom_self G x
    · exact reachN_mem_reachFrom hG hr

theorem reachN_cases_mem {G : Graph} {a x : String} (h : ReachN G a x) :
    x = a ∨ x ∈ G.nodes := by
  induction h with
  | refl => exact Or.inl rfl
  | tail _ hbc _ => exact Or.inr hbc.2

theorem reachN_symm {G : Graph} {a x : String} (ha : a ∈ G.nodes)
    (h : ReachN G a x) : ReachN G x a := by
  induction h with
  | refl => exact Relation.ReflTransGen.refl
  | @tail b c hab hbc ih =>
    refine Relation.ReflTransGen.head ⟨adjB_comm.mp hbc.1, ?_⟩ ih
    rcases reachN_cases_mem hab with rfl | hb
    · exact ha
    · exact hb

theorem componentsAux_spec {G : Graph} (hG : G.nodes.Nodup) :
    ∀ (todo seen : List String), todo ⊆ G.nodes →
      (∀ u ∈ seen, u ∈ G.nodes) →
      (∀ u ∈ seen, ∀ y, ReachN G u y → y ∈ G.nodes → y ∈ seen) →
      (∀ c ∈ componentsAux G todo seen,
          ∃ v, v ∈ G.nodes ∧ v ∉ seen ∧ c = reachFrom G v) ∧
      (∀ x ∈ todo, x ∉ seen → ∃ c ∈ componentsAux G todo seen, x ∈ c) ∧
      (∀ c ∈ componentsAux G todo seen, ∀ x ∈ c, x ∉ seen) ∧
      List.Pairwise (fun c d => ∀ x, x ∈ c → x ∉ d) (componentsAux G todo seen) := by
  intro todo
  induction todo with
  | nil =>
    intro seen _ _ _
    refine ⟨?_, ?_, ?_, ?_⟩ <;> simp [componentsAux]
  | cons v vs ih =>
    intro seen hsub hseenN hclosed
    have hv : v ∈ G.nodes := hsub (List.mem_cons_self v vs)
    have hvs : vs ⊆ G.nodes := fun x hx => hsub (List.mem_cons_of_mem v hx)
    by_cases hvseen : v ∈ seen
    · have heq : componentsAux G (v :: vs) seen = componentsAux G vs seen := by
        simp only [componentsAux]
        rw [if_pos hvseen]
      obtain ⟨h1, h2, h3, h4⟩ := ih seen hvs hseenN hclosed
      rw [heq]
      refine ⟨h1, ?_, h3, h4⟩
      intro x hx hxs
      rcases List.mem_cons.mp hx with rfl | hx'
      · exact absurd hvseen hxs
      · exact h2 x hx' hxs
    · have heq : componentsAux G (v :: vs) seen
          = reachFrom G v :: componentsAux G vs (seen ++ reachFrom G v) := by
        simp only [componentsAux]
        rw [if_neg hvseen]
      have hrsub : ∀ x ∈ reachFrom G v, x ∈ G.nodes := by
        intro x hx
        rcases (mem_reachFrom hG).mp hx with rfl | ⟨_, hxn⟩
        · exact hv
        · exact hxn
      have hseenN' : ∀ u ∈ seen ++ reachFrom G v, u ∈ G.nodes := by
        intro u hu
        rcases List.mem_append.mp hu with hu | hu
        · exact hseenN u hu
        · exact hrsub u hu
      have hclosed' : ∀ u ∈ seen ++ reachFrom G v, ∀ y, ReachN G u y →
          y ∈ G.nodes → y ∈ seen ++ reachFrom G v := by
        intro u hu y hr hy
        rcases List.mem_append.mp hu with hu | hu
        · exact List.mem_append_left _ (hclosed u hu y hr hy)
        · refine List.mem_append_right _ ?_
          have hvu : ReachN G v u := by
            rcases (mem_reachFrom hG).mp hu with rfl | ⟨h, _⟩
            · exact Relation.ReflTransGen.refl
            · exact h
          exact (mem_reachFrom hG).mpr (Or.inr ⟨Relation.ReflTransGen.trans hvu hr, hy⟩)
      obtain ⟨h1, h2, h3, h4⟩ := ih (seen ++ reachFrom G v) hvs hseenN' hclosed'
      have hdisj : ∀ x ∈ reachFrom G v, x ∉ seen := by
        intro x hx hxseen
        rcases (mem_reachFrom hG).mp hx with rfl | ⟨hr, _⟩
        · exact hvseen hxseen
        · exact hvseen (hclosed x hxseen v (reachN_symm hv hr) hv)
      rw [heq]
      refine ⟨?_, ?_, ?_, ?_⟩
      · intro c hc
        rcases List.mem_cons.mp hc with rfl | hc'
        · exact ⟨v, hv, hvseen, rfl⟩
        · obtain ⟨u, hun, huseen', hcu⟩ := h1 c hc'
          exact ⟨u, hun, fun hus => huseen' (List.mem_append_left _ hus), hcu⟩
      · intro x hx hxseen
        rcases List.mem_cons.mp hx with rfl | hx'
        · exact ⟨reachFrom G x, List.mem_cons_self _ _, mem_reachFrom_self G x⟩
        · by_cases hxr : x ∈ reachFrom G v
          · exact ⟨reachFrom G v, List.mem_cons_self _ _, hxr⟩
          · have hxseen' : x ∉ seen ++ reachFrom G v := by
              intro hmem
              rcases List.mem_append.mp hmem with h | h
              · exact hxseen h
              · exact hxr h
            obtain ⟨c, hc, hxc⟩ := h2 x hx' hxseen'
            exact ⟨c, List.mem_cons_of_mem _ hc, hxc⟩
      · intro c hc x hxc
        rcases List.mem_cons.mp hc with rfl | hc'
        · exact hdisj x hxc
        · intro hxseen
          exact (h3 c hc' x hxc) (List.mem_append_left _ hxseen)
      · refine List.Pairwise.cons ?_ h4
        intro c' hc' x hx hxc'
        exact (h3 c' hc' x hxc') (List.mem_append_right _ hx)

theorem addNode_nodup {acc : List String} {u : String} (h : acc.Nodup) :
    (addNode acc u).Nodup := by
  unfold addNode
  by_cases hu : u ∈ acc
  · rw [if_pos hu]
    exact h
  · rw [if_neg hu]
    refine List.Nodup.append h (List.nodup_singleton u) ?_
    intro x hx hxu
    rw [List.mem_singleton] at hxu
    subst hxu
    exact hu hx

theorem foldl_addNode_nodup (l : List String) :
    ∀ acc : List String, acc.Nodup → (l.foldl addNode acc).Nodup := by
  induction l with
  | nil => intro acc h; exact h
  | cons a l ih => intro acc h; exact ih (addNode acc a) (addNode_nodup h)

theorem foldl_addEdge_nodup (es : List (String × String × Int)) :
    ∀ acc : List String, acc.Nodup →
      (es.foldl (fun acc e => addNode (addNode acc e.1) e.2.1) acc).Nodup := by
  induction es with
  | nil => intro acc h; exact h
  | cons e es ih =>
    intro acc h
    exact ih (addNode (addNode acc e.1) e.2.1) (addNode_nodup (addNode_nodup h))

theorem graph_nodes_nodup (mx : List ((String × String) × Int)) (t : Int)
    (s : Bool) : (matrix_to_graph mx t s).nodes.Nodup := by
  have h0 : (matrix_to_graph mx t false).nodes.Nodup :=
    foldl_addEdge_nodup _ [] List.nodup_nil
  cases s
  · exact h0
  · exact foldl_addNode_nodup (mx.flatMap (fun e => [e.1.1, e.1.2])) _ h0

theorem adjB_mono {mx : List ((String × String) × Int)} {t1 t2 : Int}
    {s1 s2 : Bool} {a b : String} (h : t1 ≤ t2)
    (hadj : adjB (matrix_to_graph mx t1 s1) a b = true) :
    adjB (matrix_to_graph mx t2 s2) a b = true := by
  unfold adjB at *
  rw [graph_edges_eq] at *
  obtain ⟨e, he, hcond⟩ := List.any_eq_true.mp hadj
  obtain ⟨p, hp, rfl⟩ := List.mem_map.mp he
  obtain ⟨hpm, hpt⟩ := List.mem_filter.mp hp
  refine List.any_eq_true.mpr ⟨(p.1.1, p.1.2, p.2), ?_, hcond⟩
  exact List.mem_map.mpr ⟨p, List.mem_filter.mpr
    ⟨hpm, decide_eq_true (le_trans (of_decide_eq_true hpt) h)⟩, rfl⟩

theorem reachN_mono {mx : List ((String × String) × Int)} {t1 t2 : Int}
    {a x : String} (h : t1 ≤ t2)
    (hr : ReachN (matrix_to_graph mx t1 true) a x) :
    ReachN (matrix_to_graph mx t2 true) a x := by
  induction hr with
  | refl => exact Relation.ReflTransGen.refl
  | tail _ hbc ih =>
    exact Relation.ReflTransGen.tail ih
      ⟨adjB_mono h hbc.1,
        mem_nodes_of_graph_true.mpr (mem_nodes_of_graph_true.mp hbc.2)⟩

end Connectivity

/-- C2: for every graph (whose node list is duplicate-free, as every graph
built by `matrix_to_graph` is), the clusters returned by the
connected-components extraction partition the node set: every cluster is
non-empty, clusters only contain nodes, every node lies in some cluster, and
distinct clusters are disjoint — so every node lies in exactly one cluster. -/
theorem C2_clusters_partition (G : Graph) (hG : G.nodes.Nodup) :
    (∀ c ∈ connected_components G, c ≠ []) ∧
    (∀ c ∈ connected_components G, ∀ x ∈ c, x ∈ G.nodes) ∧
    (∀ x ∈ G.nodes, ∃ c ∈ connected_components G, x ∈ c) ∧
    List.Pairwise (fun c d => ∀ x ∈ c, x ∉ d) (connected_components G) := by
  obtain ⟨h1, h2, h3, h4⟩ := componentsAux_spec hG G.nodes []
    (fun x hx => hx) (by simp) (by simp)
  refine ⟨?_, ?_, ?_, h4⟩
  · intro c hc
    obtain ⟨v, _, _, rfl⟩ := h1 c hc
    exact List.ne_nil_of_mem (mem_reachFrom_self G v)
  · intro c hc x hx
    obtain ⟨v, hv, _, rfl⟩ := h1 c hc
    rcases (mem_reachFrom hG).mp hx with rfl | ⟨_, hxn⟩
    · exact hv
    · exact hxn
  · intro x hx
    exact h2 x hx (List.not_mem_nil x)

/-- Witness for C2 at the graph of the matrix `{A-B:2, A-C:10, B-C:9}` with
threshold 3 and singletons included. -/
theorem C2_clusters_partition_witness :
    (∀ c ∈ connected_components
        (matrix_to_graph [(("A", "B"), 2), (("A", "C"), 10), (("B", "C"), 9)] 3 true),
      c ≠ []) ∧
    (∀ c ∈ connected_components
        (matrix_to_graph [(("A", "B"), 2), (("A", "C"), 10), (("B", "C"), 9)] 3 true),
      ∀ x ∈ c,
        x ∈ (matrix_to_graph [(("A", "B"), 2), (("A", "C"), 10), (("B", "C"), 9)] 3 true).nodes) ∧
    (∀ x ∈ (matrix_to_graph [(("A", "B"), 2), (("A", "C"), 10), (("B", "C"), 9)] 3 true).nodes,
      ∃ c ∈ connected_components
        (matrix_to_graph [(("A", "B"), 2), (("A", "C"), 10), (("B", "C"), 9)] 3 true),
        x ∈ c) ∧
    List.Pairwise (fun c d => ∀ x ∈ c, x ∉ d)
      (connected_components
        (matrix_to_graph [(("A", "B"), 2), (("A", "C"), 10), (("B", "C"), 9)] 3 true)) :=
  C2_clusters_partition
    (matrix_to_graph [(("A", "B"), 2), (("A", "C"), 10), (("B", "C"), 9)] 3 true)
    (by decide)

/-- C5: for a loaded matrix and thresholds `t1 < t2`, with singletons included
in both runs, every cluster at the lower threshold is contained in some
cluster at the higher one — lowering the threshold only splits or preserves
clusters, never merges them. -/
theorem C5_threshold_monotone (names : List String) (rows : List (List Int))
    (mx : List ((String × String) × Int))
    (hload : load_matrix names rows = Except.ok mx)
    (t1 t2 : Int) (h12 : t1 < t2) :
    ∀ c1 ∈ connected_components (matrix_to_graph mx t1 true),
      ∃ c2 ∈ connected_components (matrix_to_graph mx t2 true),
        ∀ x ∈ c1, x ∈ c2 := by
  intro c1 hc1
  have hle : t1 ≤ t2 := le_of_lt h12
  have hG1 : (matrix_to_graph mx t1 true).nodes.Nodup := graph_nodes_nodup mx t1 true
  have hG2 : (matrix_to_graph mx t2 true).nodes.Nodup := graph_nodes_nodup mx t2 true
  have hnodes : ∀ u : String, u ∈ (matrix_to_graph mx t1 true).nodes →
      u ∈ (matrix_to_graph mx t2 true).nodes := fun u hu =>
    mem_nodes_of_graph_true.mpr (mem_nodes_of_graph_true.mp hu)
  obtain ⟨spec1, _, _, _⟩ := componentsAux_spec hG1
    (matrix_to_graph mx t1 true).nodes [] (fun x hx => hx) (by simp) (by simp)
  obtain ⟨v, hvn, _, rfl⟩ := spec1 c1 hc1
  obtain ⟨spec2, cover2, _, _⟩ := componentsAux_spec hG2
    (matrix_to_graph mx t2 true).nodes [] (fun x hx => hx) (by simp) (by simp)
  obtain ⟨c2, hc2, hvc2⟩ := cover2 v (hnodes v hvn) (List.not_mem_nil v)
  refine ⟨c2, hc2, ?_⟩
  obtain ⟨u, hun, _, rfl⟩ := spec2 c2 hc2
  intro x hx
  rcases (mem_reachFrom hG1).mp hx with rfl | ⟨hr1, hxn1⟩
  · exact hvc2
  · have hr2 : ReachN (matrix_to_graph mx t2 true) v x := reachN_mono hle hr1
    have huv : ReachN (matrix_to_graph mx t2 true) u v := by
      rcases (mem_reachFrom hG2).mp hvc2 with rfl | ⟨h, _⟩
      · exact Relation.ReflTransGen.refl
      · exact h
    exact (mem_reachFrom hG2).mpr
      (Or.inr ⟨Relation.ReflTransGen.trans huv hr2, hnodes x hxn1⟩)

/-- Witness for C5: the matrix `{A-B:2, A-C:10, B-C:9}` at thresholds 3 and 9;
the threshold-3 cluster `[A, B]` is contained in a threshold-9 cluster. -/
theorem C5_threshold_monotone_witness :
    ∃ c2 ∈ connected_components
        (matrix_to_graph [(("A", "B"), 2), (("A", "C"), 10), (("B", "C"), 9)] 9 true),
      ∀ x ∈ (["A", "B"] : List String), x ∈ c2 :=
  C5_threshold_monotone ["A", "B", "C"] [[0, 2, 10], [2, 0, 9], [10, 9, 0]]
    [(("A", "B"), 2), (("A", "C"), 10), (("B", "C"), 9)] rfl 3 9 (by decide)
    ["A", "B"] (by decide)

section Ordering

theorem lexLe_total : ∀ (a b : List Char), lexLe a b = true ∨ lexLe b a = true := by
  intro a
  induction a with
  | nil => intro b; exact Or.inl rfl
  | cons x xs ih =>
    intro b
    cases b with
    | nil => exact Or.inr rfl
    | cons y ys =>
      rcases lt_trichotomy x y with h | h | h
      · left
        simp [lexLe, h]
      · subst h
        rcases ih ys with h' | h'
        · left
          simp [lexLe, lt_irrefl, h']
        · right
          simp [lexLe, lt_irrefl, h']
      · right
        simp [lexLe, h]

theorem lexLe_trans : ∀ {a b c : List Char},
    lexLe a b = true → lexLe b c = true → lexLe a c = true := by
  intro a
  induction a with
  | nil => intro b c _ _; rfl
  | cons x xs ih =>
    intro b c hab hbc
    cases b with
    | nil => simp [lexLe] at hab
    | cons y ys =>
      cases c with
      | nil => simp [lexLe] at hbc
      | cons z zs =>
        by_cases hxy : x < y
        · by_cases hyz : y < z
          · simp [lexLe, lt_trans hxy hyz]
          · by_cases hzy : z < y
            · simp [lexLe, hyz, hzy] at hbc
            · have hyzeq : y = z := le_antisymm (not_lt.mp hzy) (not_lt.mp hyz)
              subst hyzeq
              simp [lexLe, hxy]
        · by_cases hyx : y < x
          · simp [lexLe, hxy, hyx] at hab
          · have hxyeq : x = y := le_antisymm (not_lt.mp hyx) (not_lt.mp hxy)
            subst hxyeq
            simp only [lexLe, lt_irrefl, if_false] at hab
            by_cases hxz : x < z
            · simp [lexLe, hxz]
            · by_cases hzx : z < x
              · simp [lexLe, hxz, hzx] at hbc
              · have hxzeq : x = z := le_antisymm (not_lt.mp hzx) (not_lt.mp hxz)
                subst hxzeq
                simp only [lexLe, lt_irrefl, if_false] at hbc ⊢
                exact ih hab hbc

theorem lexLe_antisymm : ∀ {a b : List Char},
    lexLe a b = true → lexLe b a = true → a = b := by
  intro a
  induction a with
  | nil =>
    intro b _ hba
    cases b with
    | nil => rfl
    | cons y ys => simp [lexLe] at hba
  | cons x xs ih =>
    intro b hab hba
    cases b with
    | nil => simp [lexLe] at hab
    | cons y ys =>
      by_cases hxy : x < y
      · simp [lexLe, hxy, asymm hxy] at hba
      · by_cases hyx : y < x
        · simp [lexLe, hxy, hyx] at hab
        · have hxyeq : x = y := le_antisymm (not_lt.mp hyx) (not_lt.mp hxy)
          subst hxyeq
          simp only [lexLe, lt_irrefl, if_false] at hab hba
          rw [ih hab hba]

theorem strLe_total (a b : String) : strLe a b = true ∨ strLe b a = true :=
  lexLe_total a.data b.data

theorem strLe_trans {a b c : String} (h1 : strLe a b = true)
    (h2 : strLe b c = true) : strLe a c = true :=
  lexLe_trans h1 h2

theorem strLe_antisymm {a b : String} (h1 : strLe a b = true)
    (h2 : strLe b a = true) : a = b :=
  String.ext (lexLe_antisymm h1 h2)

theorem strLt_of_strLe_of_ne {a b : String} (h1 : strLe a b = true)
    (h2 : a ≠ b) : strLt a b = true := by
  unfold strLt
  rcases hba : strLe b a with _ | _
  · rfl
  · exact absurd (strLe_antisymm h1 hba) h2

theorem argsort_sorted (names : List String) :
    List.Pairwise
      (fun i j => strLe (names.getD i "") (names.getD j "") = true)
      (argsort names) := by
  letI : IsTotal Nat (fun i j => strLe (names.getD i "") (names.getD j "") = true) :=
    ⟨fun a b => strLe_total _ _⟩
  letI : IsTrans Nat (fun i j => strLe (names.getD i "") (names.getD j "") = true) :=
    ⟨fun _ _ _ h1 h2 => strLe_trans h1 h2⟩
  exact List.sorted_insertionSort _ (List.range names.length)

theorem map_getD_range (l : List String) :
    (List.range l.length).map (fun i => l.getD i "") = l := by
  apply List.ext_getElem
  · simp
  · intro n h1 h2
    rw [List.getElem_map, List.getElem_range, List.getD_eq_getElem l "" h2]

theorem sorted_names_pairwise (names : List String) :
    List.Pairwise (fun a b => strLe a b = true) (sorted_names names) := by
  unfold sorted_names
  rw [List.pairwise_map]
  exact argsort_sorted names

theorem sorted_names_perm (names : List String) :
    (sorted_names names).Perm names := by
  unfold sorted_names
  have h1 := (argsort_perm names).map (fun i => names.getD i "")
  rwa [map_getD_range names] at h1

theorem sorted_eq_of_perm {l1 l2 : List String} (hp : l1.Perm l2)
    (h1 : List.Pairwise (fun a b => strLe a b = true) l1)
    (h2 : List.Pairwise (fun a b => strLe a b = true) l2) : l1 = l2 := by
  letI : IsAntisymm String (fun a b => strLe a b = true) :=
    ⟨fun _ _ ha hb => strLe_antisymm ha hb⟩
  exact List.eq_of_perm_of_sorted hp h1 h2

theorem sorted_names_nodup {names : List String} (h : names.Nodup) :
    (sorted_names names).Nodup :=
  ((sorted_names_perm names).nodup_iff).mpr h

theorem sorted_names_pairwise_strLt {names : List String} (h : names.Nodup) :
    List.Pairwise (fun a b => strLt a b = true) (sorted_names names) := by
  have h1 := sorted_names_pairwise names
  have h2 : (sorted_names names).Nodup := sorted_names_nodup h
  have h3 := List.Pairwise.and h1 h2
  refine h3.imp ?_
  rintro a b ⟨hab, hne⟩
  exact strLt_of_strLe_of_ne hab hne

end Ordering

section Canonicalization

theorem getD_names_inj {names : List String} (h : names.Nodup) {i j : Nat}
    (hi : i < names.length) (hj : j < names.length)
    (he : names.getD i "" = names.getD j "") : i = j := by
  rw [List.getD_eq_getElem _ _ hi, List.getD_eq_getElem _ _ hj] at he
  exact (List.Nodup.getElem_inj_iff h).mp he

theorem fancyIndex_eq_some {α : Type} (d : α) {idx : List Nat} {r : List α}
    (h : ∀ i ∈ idx, i < r.length) :
    fancyIndex idx r = some (idx.map (fun i => r.getD i d)) := by
  unfold fancyIndex
  apply mapM_option_eq_some
  intro i hi
  rw [List.getElem?_eq_getElem (h i hi), List.getD_eq_getElem r d (h i hi)]

theorem sortedMatrixOf_eq (names : List String) (rows : List (List Int))
    (hlen : rows.length = names.length)
    (hrowlen : ∀ r ∈ rows, r.length = names.length) :
    sortedMatrixOf names rows = some ((argsort names).map (fun i =>
      (argsort names).map (fun j => getEntry rows i j))) := by
  have hidx : ∀ i ∈ argsort names, i < names.length :=
    fun i hi => (mem_argsort names).mp hi
  have h1 : rows.mapM (fancyIndex (argsort names))
      = some (rows.map (fun r => (argsort names).map (fun j => r.getD j 0))) := by
    apply mapM_option_eq_some
    intro r hr
    exact fancyIndex_eq_some 0 (fun i hi => by rw [hrowlen r hr]; exact hidx i hi)
  have h2 : fancyIndex (argsort names)
      (rows.map (fun r => (argsort names).map (fun j => r.getD j 0)))
      = some ((argsort names).map (fun i =>
          (rows.map (fun r => (argsort names).map (fun j => r.getD j 0))).getD i [])) := by
    apply fancyIndex_eq_some
    intro i hi
    rw [List.length_map, hlen]
    exact hidx i hi
  have h3 : (argsort names).map (fun i =>
        (rows.map (fun r => (argsort names).map (fun j => r.getD j 0))).getD i [])
      = (argsort names).map (fun i =>
          (argsort names).map (fun j => getEntry rows i j)) := by
    apply List.map_congr_left
    intro i hi
    have hilt : i < rows.length := by rw [hlen]; exact hidx i hi
    have hmlt : i < (rows.map (fun r =>
        (argsort names).map (fun j => r.getD j 0))).length := by
      rw [List.length_map]
      exact hilt
    rw [List.getD_eq_getElem _ [] hmlt, List.getElem_map]
    apply List.map_congr_left
    intro j _
    unfold getEntry
    rw [List.getD_eq_getElem rows [] hilt]
  unfold sortedMatrixOf
  rw [h1, Option.some_bind, h2, h3]

theorem load_matrix_congr {names1 names2 : List String}
    {rows1 rows2 : List (List Int)}
    (hsm : sortedMatrixOf names1 rows1 = sortedMatrixOf names2 rows2)
    (hsn : sorted_names names1 = sorted_names names2) :
    load_matrix names1 rows1 = load_matrix names2 rows2 := by
  rcases h : sortedMatrixOf names2 rows2 with _ | sm
  · rw [load_matrix_of_none (hsm.trans h), load_matrix_of_none h]
  · rw [load_matrix_of_some (hsm.trans h), load_matrix_of_some h, hsn]

theorem load_matrix_perm_invariant (names : List String) (rows : List (List Int))
    (p : List Nat) (hnd : names.Nodup)
    (hp : p.Perm (List.range names.length))
    (hlen : rows.length = names.length)
    (hrowlen : ∀ r ∈ rows, r.length = names.length) :
    load_matrix (p.map (fun i => names.getD i ""))
        (p.map (fun i => p.map (fun j => getEntry rows i j)))
      = load_matrix names rows := by
  have hplen : p.length = names.length := by simpa using hp.length_eq
  have hpmem : ∀ i ∈ p, i < names.length := fun i hi =>
    List.mem_range.mp (hp.subset hi)
  have hn2len : (p.map (fun i => names.getD i "")).length = names.length := by
    rw [List.length_map, hplen]
  -- entries of the permuted name list
  have hn2get : ∀ k, k < p.length →
      (p.map (fun i => names.getD i "")).getD k ""
        = names.getD (p.getD k 0) "" := by
    intro k hk
    rw [List.getD_eq_getElem _ "" (by rw [List.length_map]; exact hk),
      List.getElem_map, List.getD_eq_getElem p 0 hk]
  -- the permuted names are a permutation of the originals
  have hn2perm : (p.map (fun i => names.getD i "")).Perm names := by
    have h1 := hp.map (fun i => names.getD i "")
    rwa [map_getD_range names] at h1
  -- identical canonical name order
  have hsn : sorted_names (p.map (fun i => names.getD i "")) = sorted_names names :=
    sorted_eq_of_perm
      (((sorted_names_perm _).trans hn2perm).trans (sorted_names_perm names).symm)
      (sorted_names_pairwise _) (sorted_names_pairwise names)
  -- positions selected by the two argsorts match through p
  have hidx2lt : ∀ k, k < names.length →
      (argsort (p.map (fun i => names.getD i ""))).getD k 0 < p.length := by
    intro k hk
    have hl : k < (argsort (p.map (fun i => names.getD i ""))).length := by
      rw [argsort_length, hn2len]
      exact hk
    rw [List.getD_eq_getElem _ 0 hl, hplen, ← hn2len]
    exact (mem_argsort _).mp (List.getElem_mem hl)
  have hidx1lt : ∀ k, k < names.length →
      (argsort names).getD k 0 < names.length := by
    intro k hk
    have hl : k < (argsort names).length := by
      rw [argsort_length]
      exact hk
    rw [List.getD_eq_getElem _ 0 hl]
    exact (mem_argsort names).mp (List.getElem_mem hl)
  have hkey : ∀ k, k < names.length →
      p.getD ((argsort (p.map (fun i => names.getD i ""))).getD k 0) 0
        = (argsort names).getD k 0 := by
    intro k hk
    have hsg : (sorted_names (p.map (fun i => names.getD i ""))).getD k ""
        = (sorted_names names).getD k "" := by rw [hsn]
    have hlhs : (sorted_names (p.map (fun i => names.getD i ""))).getD k ""
        = names.getD (p.getD ((argsort (p.map (fun i => names.getD i ""))).getD k 0) 0) "" := by
      have hkl : k < (argsort (p.map (fun i => names.getD i ""))).length := by
        rw [argsort_length, hn2len]
        exact hk
      unfold sorted_names
      rw [List.getD_eq_getElem _ "" (by rw [List.length_map]; exact hkl),
        List.getElem_map, ← List.getD_eq_getElem _ 0 hkl]
      exact hn2get _ (hidx2lt k hk)
    have hrhs : (sorted_names names).getD k ""
        = names.getD ((argsort names).getD k 0) "" := by
      have hkl : k < (argsort names).length := by
        rw [argsort_length]
        exact hk
      unfold sorted_names
      rw [List.getD_eq_getElem _ "" (by rw [List.length_map]; exact hkl),
        List.getElem_map, ← List.getD_eq_getElem _ 0 hkl]
    refine getD_names_inj hnd ?_ (hidx1lt k hk) ?_
    · have := hidx2lt k hk
      have hm : p.getD ((argsort (p.map (fun i => names.getD i ""))).getD k 0) 0 ∈ p := by
        rw [List.getD_eq_getElem p 0 this]
        exact List.getElem_mem this
      exact hpmem _ hm
    · rw [← hlhs, hsg, hrhs]
  -- entries of the permuted rows
  have hrow2get : ∀ i j, i < p.length → j < p.length →
      getEntry (p.map (fun i => p.map (fun j => getEntry rows i j))) i j
        = getEntry rows (p.getD i 0) (p.getD j 0) := by
    intro i j hi hj
    unfold getEntry
    rw [List.getD_eq_getElem (p.map _) [] (by rw [List.length_map]; exact hi),
      List.getElem_map,
      List.getD_eq_getElem (p.map _) 0 (by rw [List.length_map]; exact hj),
      List.getElem_map, List.getD_eq_getElem p 0 hi, List.getD_eq_getElem p 0 hj]
  -- the two canonically sorted matrices coincide
  have hsm : sortedMatrixOf (p.map (fun i => names.getD i ""))
      (p.map (fun i => p.map (fun j => getEntry rows i j)))
      = sortedMatrixOf names rows := by
    rw [sortedMatrixOf_eq names rows hlen hrowlen,
      sortedMatrixOf_eq (p.map (fun i => names.getD i ""))
        (p.map (fun i => p.map (fun j => getEntry rows i j)))
        (by rw [List.length_map, hplen, hn2len])
        (by
          intro r hr
          obtain ⟨i, _, rfl⟩ := List.mem_map.mp hr
          rw [List.length_map, hplen, hn2len])]
    have hlist : (argsort (p.map (fun i => names.getD i ""))).map (fun i => p.getD i 0)
        = argsort names := by
      apply List.ext_getElem
      · rw [List.length_map, argsort_length, argsort_length, hn2len]
      · intro k h1 h2
        have hkn : k < names.length := by
          rw [argsort_length] at h2
          exact h2
        have hik : k < (argsort (p.map (fun i => names.getD i ""))).length := by
          rw [argsort_length, hn2len]
          exact hkn
        rw [List.getElem_map,
          ← List.getD_eq_getElem (argsort (p.map (fun i => names.getD i ""))) 0 hik,
          ← List.getD_eq_getElem (argsort names) 0 h2]
        exact hkey k hkn
    refine congrArg some ?_
    rw [← hlist]
    simp only [List.map_map]
    apply List.map_congr_left
    intro i hi
    apply List.map_congr_left
    intro j hj
    have hi' : i < p.length := by
      rw [hplen, ← hn2len]
      exact (mem_argsort _).mp hi
    have hj' : j < p.length := by
      rw [hplen, ← hn2len]
      exact (mem_argsort _).mp hj
    exact hrow2get i j hi' hj'
  exact load_matrix_congr hsm hsn

theorem triangle_mem {ns : List String} {sm : List (List Int)}
    {q : (String × String) × Int} :
    q ∈ triangle ns sm ↔ ∃ i j, i < ns.length ∧ j < ns.length ∧ i < j ∧
      q = ((ns.getD i "", ns.getD j ""), getEntry sm i j) := by
  unfold triangle
  simp only [List.mem_flatMap, List.mem_map, List.mem_filter, List.mem_range,
    decide_eq_true_eq]
  constructor
  · rintro ⟨i, hi, j, ⟨hj, hij⟩, rfl⟩
    exact ⟨i, j, hi, hj, hij, rfl⟩
  · rintro ⟨i, j, hi, hj, hij, rfl⟩
    exact ⟨i, hi, j, ⟨hj, hij⟩, rfl⟩

theorem triangle_keys {names : List String} {rows : List (List Int)}
    {mx : List ((String × String) × Int)} (hnd : names.Nodup)
    (hload : load_matrix names rows = Except.ok mx) :
    ∀ q ∈ mx, strLt q.1.1 q.1.2 = true := by
  rcases hsm : sortedMatrixOf names rows with _ | sm
  · rw [load_matrix_of_none hsm] at hload
    cases hload
  · rw [load_matrix_of_some hsm] at hload
    rcases hdd : diagonal_is_zero sm (sorted_names names).length with _ | _ <;>
      rw [hdd] at hload
    · simp at hload
    · rcases hms : matrix_is_symmetric sm (sorted_names names).length with _ | _ <;>
        rw [hms] at hload
      · simp at hload
      · simp at hload
        subst hload
        intro q hq
        obtain ⟨i, j, hi, hj, hij, rfl⟩ := triangle_mem.mp hq
        have hpw := sorted_names_pairwise_strLt hnd
        have hs := List.pairwise_iff_getElem.mp hpw i j hi hj hij
        rw [List.getD_eq_getElem _ "" hi, List.getD_eq_getElem _ "" hj]
        exact hs

end Canonicalization

/-- C8: loading is deterministic and canonicalizing.  For duplicate-free
names and a well-shaped matrix, loading an input whose sample columns (and
correspondingly its rows) are permuted by `p` yields exactly the same result
as loading the original, and the same clusters in the same order; moreover
the canonical name order is strictly lexicographic and every triangle key
`(a, b)` of a loaded matrix satisfies `a < b`.  (Loading the same input twice
is identical by construction: the loader is a pure function of its input.) -/
theorem C8_column_order_determinism (names : List String) (rows : List (List Int))
    (p : List Nat) (t : Int) (hnd : names.Nodup)
    (hp : p.Perm (List.range names.length))
    (hlen : rows.length = names.length)
    (hrowlen : ∀ r ∈ rows, r.length = names.length) :
    load_matrix (p.map (fun i => names.getD i ""))
        (p.map (fun i => p.map (fun j => getEntry rows i j)))
      = load_matrix names rows ∧
    get_clusters (p.map (fun i => names.getD i ""))
        (p.map (fun i => p.map (fun j => getEntry rows i j))) t
      = get_clusters names rows t ∧
    List.Pairwise (fun a b => strLt a b = true) (sorted_names names) ∧
    (∀ mx, load_matrix names rows = Except.ok mx →
      ∀ q ∈ mx, strLt q.1.1 q.1.2 = true) := by
  have hl := load_matrix_perm_invariant names rows p hnd hp hlen hrowlen
  refine ⟨hl, ?_, sorted_names_pairwise_strLt hnd, fun mx h => triangle_keys hnd h⟩
  unfold get_clusters
  rw [hl]

/-- Witness for C8: the two-sample matrix given with columns in order `B, A`
and the same matrix with columns swapped to order `A, B`. -/
theorem C8_column_order_determinism_witness :
    load_matrix (([1, 0] : List Nat).map (fun i => (["B", "A"] : List String).getD i ""))
        (([1, 0] : List Nat).map (fun i =>
          ([1, 0] : List Nat).map (fun j => getEntry [[0, 5], [5, 0]] i j)))
      = load_matrix ["B", "A"] [[0, 5], [5, 0]] ∧
    get_clusters (([1, 0] : List Nat).map (fun i => (["B", "A"] : List String).getD i ""))
        (([1, 0] : List Nat).map (fun i =>
          ([1, 0] : List Nat).map (fun j => getEntry [[0, 5], [5, 0]] i j))) 7
      = get_clusters ["B", "A"] [[0, 5], [5, 0]] 7 ∧
    List.Pairwise (fun a b => strLt a b = true) (sorted_names ["B", "A"]) ∧
    (∀ mx, load_matrix ["B", "A"] [[0, 5], [5, 0]] = Except.ok mx →
      ∀ q ∈ mx, strLt q.1.1 q.1.2 = true) :=
  C8_column_order_determinism ["B", "A"] [[0, 5], [5, 0]] [1, 0] 7
    (by decide) (by decide) (by decide) (by decide)

end Tbpore
